import Mathlib

/-!
Verification of the changeset algebra of `bdk` (`crates/chain/src/keychain.rs`)
and the targeted-sync flag logic of `example-crates/example_electrum/src/main.rs`.

A Rust `BTreeMap<K, u32>` is embedded as an association list `List (K × Nat)`
whose keys are strictly increasing (predicate `sortedKeys`); `u32` indices are
embedded as `Nat` (the only operation performed on them is `max`, which cannot
overflow), while `u64` balance amounts use explicit wrap-around modulo `2 ^ 64`.
-/

namespace BdkSpec

variable {K : Type}

/-- Lookup of a key in an association list, mirroring `BTreeMap::get`
(first matching entry; on a sorted map the match is unique). -/
def lookupKey [DecidableEq K] (k : K) : List (K × Nat) → Option Nat
  | [] => none
  | (k1, v) :: rest => if k = k1 then some v else lookupKey k rest

/-- All keys of the list are strictly greater than `k`. -/
def keysGt [LinearOrder K] (k : K) : List (K × Nat) → Bool
  | [] => true
  | (k1, _) :: rest => decide (k < k1) && keysGt k rest

/-- The keys of the list are strictly increasing: the representation
invariant of a `BTreeMap` embedded as an association list. -/
def sortedKeys [LinearOrder K] : List (K × Nat) → Bool
  | [] => true
  | (k, _) :: rest => keysGt k rest && sortedKeys rest

/-- `BTreeMap::remove`, returning the removed value (if any) and the
remaining entries. -/
def removeKey [DecidableEq K] (k : K) : List (K × Nat) → Option Nat × List (K × Nat)
  | [] => (none, [])
  | (k1, v) :: rest =>
    if k = k1 then (some v, rest)
    else
      let r := removeKey k rest
      (r.1, (k1, v) :: r.2)

/-- `BTreeMap::insert` on the sorted-association-list representation:
place the entry at its ordered position, overwriting an equal key. -/
def insertKey [LinearOrder K] (k : K) (v : Nat) : List (K × Nat) → List (K × Nat)
  | [] => [(k, v)]
  | (k1, v1) :: rest =>
    if k < k1 then (k, v) :: (k1, v1) :: rest
    else if k = k1 then (k, v) :: rest
    else (k1, v1) :: insertKey k v rest

/-- `BTreeMap::append(&mut other)`: move every entry of `other` into `self`
(entries of `other` overwrite equal keys of `self`). -/
def mapAppend [LinearOrder K] (self other : List (K × Nat)) : List (K × Nat) :=
  other.foldl (fun acc p => insertKey p.1 p.2 acc) self

/-- The `iter_mut` loop of `ChangeSet::append`: for each entry `(k, v)` of
`self`, remove `k` from `other`; when the removal yields `w`, replace `v`
with `w.max v`.  Returns the updated `self` and the depleted `other`. -/
def appendLoop [DecidableEq K] : List (K × Nat) → List (K × Nat) → List (K × Nat) × List (K × Nat)
  | [], other => ([], other)
  | (k, v) :: rest, other =>
    let r := removeKey k other
    let next := appendLoop rest r.2
    match r.1 with
    | some w => ((k, max w v) :: next.1, next.2)
    | none => ((k, v) :: next.1, next.2)

/-- Body of `ChangeSet::append` at the list level: run the update loop,
then `BTreeMap::append` the remaining entries of `other` into `self`. -/
def csAppend [LinearOrder K] (self other : List (K × Nat)) : List (K × Nat) :=
  let r := appendLoop self other
  mapAppend r.1 r.2

/-- `keychain::ChangeSet<K>`: maps each keychain to its last revealed
derivation index (`BTreeMap<K, u32>`). -/
structure ChangeSet (K : Type) where
  entries : List (K × Nat)
deriving DecidableEq

/-- `ChangeSet::append` (the `Append` impl in `keychain.rs`). -/
def ChangeSet.append [LinearOrder K] (self other : ChangeSet K) : ChangeSet K :=
  ⟨csAppend self.entries other.entries⟩

/-- `ChangeSet::is_empty`. -/
def ChangeSet.is_empty (self : ChangeSet K) : Bool :=
  self.entries.isEmpty

/-- `Default for ChangeSet`: the empty map. -/
def ChangeSet.default_cs : ChangeSet K := ⟨[]⟩

/-- A `ChangeSet` whose underlying entry list satisfies the `BTreeMap`
representation invariant. -/
def ChangeSet.wf [LinearOrder K] (self : ChangeSet K) : Bool :=
  sortedKeys self.entries

/-- The per-key merge rule as the specification states it: a keychain in
both maps gets the larger index, a keychain in only one map keeps its
index. -/
def mergeRuleSpec : Option Nat → Option Nat → Option Nat
  | some v, some w => some (max w v)
  | some v, none => some v
  | none, some w => some w
  | none, none => none

/-- The keychain enumeration used by the repository's unit test
(`One`, `Two`, `Three`, `Four`). -/
inductive Keychain : Type where
  | one
  | two
  | three
  | four
deriving DecidableEq, Repr

def Keychain.toNat : Keychain → Nat
  | .one => 0
  | .two => 1
  | .three => 2
  | .four => 3

theorem Keychain.toNat_injective : Function.Injective Keychain.toNat := by
  intro a b h
  cases a <;> cases b <;> simp [Keychain.toNat] at h ⊢

instance : LinearOrder Keychain := LinearOrder.lift' Keychain.toNat Keychain.toNat_injective

/-! ### Lookup characterisation of the `BTreeMap` operations -/

theorem lookupKey_cons_self [DecidableEq K] {k : K} {v : Nat} {l : List (K × Nat)} :
    lookupKey k ((k, v) :: l) = some v := by
  simp [lookupKey]

theorem lookupKey_cons_ne [DecidableEq K] {k k1 : K} {v : Nat} {l : List (K × Nat)}
    (h : k ≠ k1) : lookupKey k ((k1, v) :: l) = lookupKey k l := by
  simp [lookupKey, h]

theorem keysGt_lookup_lt [LinearOrder K] {k0 k : K} {v : Nat} {l : List (K × Nat)}
    (h : keysGt k0 l = true) (h2 : lookupKey k l = some v) : k0 < k := by
  induction l with
  | nil => simp [lookupKey] at h2
  | cons p rest ih =>
    obtain ⟨k1, v1⟩ := p
    simp only [keysGt, Bool.and_eq_true, decide_eq_true_eq] at h
    by_cases hk : k = k1
    · exact hk ▸ h.1
    · exact ih h.2 ((lookupKey_cons_ne hk) ▸ h2)

theorem keysGt_lookup_none [LinearOrder K] {k : K} {l : List (K × Nat)}
    (h : keysGt k l = true) : lookupKey k l = none := by
  cases h2 : lookupKey k l with
  | none => rfl
  | some v => exact absurd (keysGt_lookup_lt h h2) (lt_irrefl k)

theorem sortedKeys_cons [LinearOrder K] {k : K} {v : Nat} {l : List (K × Nat)}
    (h : sortedKeys ((k, v) :: l) = true) : keysGt k l = true ∧ sortedKeys l = true := by
  simpa [sortedKeys] using h

theorem keysGt_of_lt_keysGt [LinearOrder K] {k k1 : K} {l : List (K × Nat)}
    (h1 : k < k1) (h2 : keysGt k1 l = true) : keysGt k l = true := by
  induction l with
  | nil => rfl
  | cons p rest ih =>
    obtain ⟨k2, v2⟩ := p
    simp only [keysGt, Bool.and_eq_true, decide_eq_true_eq] at h2 ⊢
    exact ⟨lt_trans h1 h2.1, ih h2.2⟩

theorem removeKey_fst [DecidableEq K] (k : K) (l : List (K × Nat)) :
    (removeKey k l).1 = lookupKey k l := by
  induction l with
  | nil => rfl
  | cons p rest ih =>
    obtain ⟨k1, v⟩ := p
    by_cases h : k = k1
    · simp [removeKey, lookupKey, h]
    · simp [removeKey, lookupKey, h, ih]

theorem removeKey_lookup_ne [DecidableEq K] {k k1 : K} (l : List (K × Nat)) (h : k1 ≠ k) :
    lookupKey k1 (removeKey k l).2 = lookupKey k1 l := by
  induction l with
  | nil => rfl
  | cons p rest ih =>
    obtain ⟨k2, v⟩ := p
    by_cases h2 : k = k2
    · subst h2
      simp [removeKey, lookupKey, h]
    · by_cases h3 : k1 = k2
      · simp [removeKey, lookupKey, h2, h3]
      · simp [removeKey, lookupKey, h2, h3, ih]

theorem removeKey_lookup_self [LinearOrder K] {k : K} {l : List (K × Nat)}
    (h : sortedKeys l = true) : lookupKey k (removeKey k l).2 = none := by
  induction l with
  | nil => rfl
  | cons p rest ih =>
    obtain ⟨k1, v⟩ := p
    obtain ⟨hgt, hrest⟩ := sortedKeys_cons h
    by_cases h2 : k = k1
    · subst h2
      simpa [removeKey] using keysGt_lookup_none hgt
    · simp [removeKey, lookupKey, h2, ih hrest]

theorem removeKey_keysGt [LinearOrder K] {k0 k : K} {l : List (K × Nat)}
    (h : keysGt k0 l = true) : keysGt k0 (removeKey k l).2 = true := by
  induction l with
  | nil => rfl
  | cons p rest ih =>
    obtain ⟨k1, v⟩ := p
    simp only [keysGt, Bool.and_eq_true, decide_eq_true_eq] at h
    by_cases h2 : k = k1
    · simpa [removeKey, h2] using h.2
    · simp only [removeKey, h2, if_false, keysGt, Bool.and_eq_true, decide_eq_true_eq]
      exact ⟨h.1, ih h.2⟩

theorem removeKey_sorted [LinearOrder K] {k : K} {l : List (K × Nat)}
    (h : sortedKeys l = true) : sortedKeys (removeKey k l).2 = true := by
  induction l with
  | nil => rfl
  | cons p rest ih =>
    obtain ⟨k1, v⟩ := p
    obtain ⟨hgt, hrest⟩ := sortedKeys_cons h
    by_cases h2 : k = k1
    · simpa [removeKey, h2] using hrest
    · simp only [removeKey, h2, if_false, sortedKeys, Bool.and_eq_true]
      exact ⟨removeKey_keysGt hgt, ih hrest⟩

theorem appendLoop_lookup [LinearOrder K] (s : List (K × Nat)) :
    ∀ o : List (K × Nat), sortedKeys s = true → sortedKeys o = true → ∀ k : K,
    lookupKey k (appendLoop s o).1
      = (match lookupKey k s, lookupKey k o with
         | some v, some w => some (max w v)
         | some v, none => some v
         | none, _ => none)
    ∧ lookupKey k (appendLoop s o).2
      = (match lookupKey k s with
         | some _ => none
         | none => lookupKey k o) := by
  induction s with
  | nil =>
    intro o _ _ k
    simp [appendLoop, lookupKey]
  | cons p rest ih =>
    obtain ⟨k0, v0⟩ := p
    intro o hs ho k
    obtain ⟨hgt, hrest⟩ := sortedKeys_cons hs
    have hr2 : sortedKeys (removeKey k0 o).2 = true := removeKey_sorted ho
    have hfst := removeKey_fst k0 o
    cases hro : lookupKey k0 o with
    | some w =>
      rw [hro] at hfst
      by_cases hk : k = k0
      · subst hk
        have h1 := (ih (removeKey k o).2 hrest hr2 k).2
        rw [keysGt_lookup_none hgt, removeKey_lookup_self ho] at h1
        simp [appendLoop, hfst, lookupKey, hro, h1]
      · have h1 := ih (removeKey k0 o).2 hrest hr2 k
        rw [removeKey_lookup_ne o hk] at h1
        simp [appendLoop, hfst, lookupKey, hk, h1.1, h1.2]
    | none =>
      rw [hro] at hfst
      by_cases hk : k = k0
      · subst hk
        have h1 := (ih (removeKey k o).2 hrest hr2 k).2
        rw [keysGt_lookup_none hgt, removeKey_lookup_self ho] at h1
        simp [appendLoop, hfst, lookupKey, hro, h1]
      · have h1 := ih (removeKey k0 o).2 hrest hr2 k
        rw [removeKey_lookup_ne o hk] at h1
        simp [appendLoop, hfst, lookupKey, hk, h1.1, h1.2]

theorem appendLoop_fst_keysGt [LinearOrder K] (s : List (K × Nat)) :
    ∀ (o : List (K × Nat)) (k0 : K), keysGt k0 s = true →
    keysGt k0 (appendLoop s o).1 = true := by
  induction s with
  | nil => intro o k0 _; rfl
  | cons p rest ih =>
    obtain ⟨k, v⟩ := p
    intro o k0 h
    simp only [keysGt, Bool.and_eq_true, decide_eq_true_eq] at h
    cases hr : (removeKey k o).1 <;>
      simp only [appendLoop, hr, keysGt, Bool.and_eq_true, decide_eq_true_eq] <;>
      exact ⟨h.1, ih _ k0 h.2⟩

theorem appendLoop_fst_sorted [LinearOrder K] (s : List (K × Nat)) :
    ∀ o : List (K × Nat), sortedKeys s = true →
    sortedKeys (appendLoop s o).1 = true := by
  induction s with
  | nil => intro o _; rfl
  | cons p rest ih =>
    obtain ⟨k, v⟩ := p
    intro o hs
    obtain ⟨hgt, hrest⟩ := sortedKeys_cons hs
    cases hr : (removeKey k o).1 <;>
      simp only [appendLoop, hr, sortedKeys, Bool.and_eq_true] <;>
      exact ⟨appendLoop_fst_keysGt rest _ k hgt, ih _ hrest⟩

theorem appendLoop_snd_sorted [LinearOrder K] (s : List (K × Nat)) :
    ∀ o : List (K × Nat), sortedKeys o = true →
    sortedKeys (appendLoop s o).2 = true := by
  induction s with
  | nil => intro o ho; exact ho
  | cons p rest ih =>
    obtain ⟨k, v⟩ := p
    intro o ho
    cases hr : (removeKey k o).1 <;>
      simp only [appendLoop, hr] <;>
      exact ih _ (removeKey_sorted ho)

theorem insertKey_lookup [LinearOrder K] (k : K) (v : Nat) (l : List (K × Nat)) (k1 : K) :
    lookupKey k1 (insertKey k v l) = if k1 = k then some v else lookupKey k1 l := by
  induction l with
  | nil => simp [insertKey, lookupKey]
  | cons p rest ih =>
    obtain ⟨k2, v2⟩ := p
    by_cases h1 : k < k2
    · simp [insertKey, h1, lookupKey]
    · by_cases h2 : k = k2
      · subst h2
        by_cases h3 : k1 = k
        · simp [insertKey, h1, lookupKey, h3]
        · simp [insertKey, h1, lookupKey, h3]
      · by_cases h3 : k1 = k2
        · subst h3
          have : k1 ≠ k := fun h => h2 h.symm
          simp [insertKey, h1, h2, lookupKey, this]
        · simp [insertKey, h1, h2, lookupKey, h3, ih]

theorem insertKey_keysGt [LinearOrder K] {k0 k : K} {v : Nat} {l : List (K × Nat)}
    (h1 : keysGt k0 l = true) (h2 : k0 < k) : keysGt k0 (insertKey k v l) = true := by
  induction l with
  | nil => simpa [insertKey, keysGt] using h2
  | cons p rest ih =>
    obtain ⟨k2, v2⟩ := p
    simp only [keysGt, Bool.and_eq_true, decide_eq_true_eq] at h1
    by_cases h3 : k < k2
    · simp only [insertKey, h3, if_true, keysGt, Bool.and_eq_true, decide_eq_true_eq]
      exact ⟨h2, h1.1, h1.2⟩
    · by_cases h4 : k = k2
      · subst h4
        simp only [insertKey, h3, if_false, eq_self_iff_true, if_true, keysGt,
          Bool.and_eq_true, decide_eq_true_eq]
        exact ⟨h2, h1.2⟩
      · simp only [insertKey, h3, if_false, h4, keysGt, Bool.and_eq_true, decide_eq_true_eq]
        exact ⟨h1.1, ih h1.2⟩

theorem insertKey_sorted [LinearOrder K] {k : K} {v : Nat} {l : List (K × Nat)}
    (h : sortedKeys l = true) : sortedKeys (insertKey k v l) = true := by
  induction l with
  | nil => rfl
  | cons p rest ih =>
    obtain ⟨k2, v2⟩ := p
    obtain ⟨hgt, hrest⟩ := sortedKeys_cons h
    by_cases h1 : k < k2
    · simp only [insertKey, h1, if_true, sortedKeys, keysGt, Bool.and_eq_true,
        decide_eq_true_eq, true_and]
      exact ⟨keysGt_of_lt_keysGt h1 hgt, hgt, hrest⟩
    · by_cases h2 : k = k2
      · subst h2
        simp only [insertKey, h1, if_false, if_true, sortedKeys, Bool.and_eq_true]
        exact ⟨hgt, hrest⟩
      · have h3 : k2 < k := lt_of_le_of_ne (le_of_not_lt h1) (fun h4 => h2 h4.symm)
        simp only [insertKey, h1, if_false, h2, sortedKeys, Bool.and_eq_true]
        exact ⟨insertKey_keysGt hgt h3, ih hrest⟩

theorem mapAppend_lookup [LinearOrder K] (o : List (K × Nat)) :
    ∀ acc : List (K × Nat), sortedKeys o = true → ∀ k : K,
    lookupKey k (mapAppend acc o)
      = (match lookupKey k o with
         | some w => some w
         | none => lookupKey k acc) := by
  induction o with
  | nil => intro acc _ k; simp [mapAppend, lookupKey]
  | cons p rest ih =>
    obtain ⟨k1, v1⟩ := p
    intro acc ho k
    obtain ⟨hgt, hrest⟩ := sortedKeys_cons ho
    have hstep : mapAppend acc ((k1, v1) :: rest) = mapAppend (insertKey k1 v1 acc) rest := rfl
    rw [hstep, ih (insertKey k1 v1 acc) hrest k]
    by_cases hk : k = k1
    · subst hk
      rw [keysGt_lookup_none hgt, lookupKey_cons_self, insertKey_lookup]
      simp
    · rw [lookupKey_cons_ne hk, insertKey_lookup]
      simp [hk]

theorem mapAppend_sorted [LinearOrder K] (o : List (K × Nat)) :
    ∀ acc : List (K × Nat), sortedKeys acc = true →
    sortedKeys (mapAppend acc o) = true := by
  induction o with
  | nil => intro acc h; exact h
  | cons p rest ih =>
    intro acc h
    exact ih (insertKey p.1 p.2 acc) (insertKey_sorted h)

/-- The central refinement lemma: on well-formed maps, the code of
`ChangeSet::append` realises the per-key merge rule of the
specification at every key. -/
theorem csAppend_lookup [LinearOrder K] {s o : List (K × Nat)}
    (hs : sortedKeys s = true) (ho : sortedKeys o = true) (k : K) :
    lookupKey k (csAppend s o) = mergeRuleSpec (lookupKey k s) (lookupKey k o) := by
  have h1 := appendLoop_lookup s o hs ho k
  have h2 := mapAppend_lookup (appendLoop s o).2 (appendLoop s o).1
    (appendLoop_snd_sorted s o ho) k
  show lookupKey k (mapAppend (appendLoop s o).1 (appendLoop s o).2) = _
  rw [h2, h1.2]
  cases hls : lookupKey k s with
  | some v =>
    rw [h1.1, hls]
    cases hlo : lookupKey k o <;> simp [mergeRuleSpec]
  | none =>
    cases hlo : lookupKey k o with
    | some w => simp [mergeRuleSpec]
    | none =>
      rw [h1.1, hls]
      simp [mergeRuleSpec]

theorem csAppend_sorted [LinearOrder K] (s o : List (K × Nat))
    (hs : sortedKeys s = true) :
    sortedKeys (csAppend s o) = true :=
  mapAppend_sorted (appendLoop s o).2 (appendLoop s o).1 (appendLoop_fst_sorted s o hs)

/-- Two well-formed maps with the same lookup at every key are equal. -/
theorem lookup_ext [LinearOrder K] (a : List (K × Nat)) :
    ∀ b : List (K × Nat), sortedKeys a = true → sortedKeys b = true →
    (∀ k : K, lookupKey k a = lookupKey k b) → a = b := by
  induction a with
  | nil =>
    intro b _ _ h
    cases b with
    | nil => rfl
    | cons p rest =>
      obtain ⟨k, v⟩ := p
      have := h k
      rw [lookupKey_cons_self] at this
      simp [lookupKey] at this
  | cons p a1 ih =>
    obtain ⟨k, v⟩ := p
    intro b ha hb h
    obtain ⟨hgta, hresta⟩ := sortedKeys_cons ha
    cases b with
    | nil =>
      have := h k
      rw [lookupKey_cons_self] at this
      simp [lookupKey] at this
    | cons q b1 =>
      obtain ⟨k2, v2⟩ := q
      obtain ⟨hgtb, hrestb⟩ := sortedKeys_cons hb
      have hkk : k = k2 := by
        by_contra hne
        have e1 : lookupKey k b1 = some v := by
          have := h k
          rw [lookupKey_cons_self, lookupKey_cons_ne hne] at this
          exact this.symm
        have e2 : lookupKey k2 a1 = some v2 := by
          have := h k2
          rw [lookupKey_cons_self, lookupKey_cons_ne (fun h2 => hne h2.symm)] at this
          exact this
        exact absurd (keysGt_lookup_lt hgtb e1) (lt_asymm (keysGt_lookup_lt hgta e2))
      subst hkk
      have hvv : v = v2 := by
        have := h k
        rw [lookupKey_cons_self, lookupKey_cons_self] at this
        exact Option.some.inj this
      subst hvv
      have htail : a1 = b1 := by
        apply ih b1 hresta hrestb
        intro k1
        by_cases hk1 : k1 = k
        · subst hk1
          rw [keysGt_lookup_none hgta, keysGt_lookup_none hgtb]
        · have := h k1
          rwa [lookupKey_cons_ne hk1, lookupKey_cons_ne hk1] at this
      rw [htail]

/-! ### Algebraic facts about the per-key merge rule -/

theorem mergeRuleSpec_self (x : Option Nat) : mergeRuleSpec x x = x := by
  cases x <;> simp [mergeRuleSpec]

theorem mergeRuleSpec_none_right (x : Option Nat) : mergeRuleSpec x none = x := by
  cases x <;> simp [mergeRuleSpec]

theorem mergeRuleSpec_exchange (x y z : Option Nat) :
    mergeRuleSpec (mergeRuleSpec x y) z = mergeRuleSpec (mergeRuleSpec x z) y := by
  cases x <;> cases y <;> cases z <;> simp [mergeRuleSpec] <;> omega

/-! ### `ChangeSet`-level wrappers -/

theorem ChangeSet.eq_of_entries {a b : ChangeSet K} (h : a.entries = b.entries) : a = b := by
  cases a; cases b; cases h; rfl

theorem ChangeSet.append_lookup [LinearOrder K] {a b : ChangeSet K}
    (ha : a.wf = true) (hb : b.wf = true) (k : K) :
    lookupKey k (a.append b).entries
      = mergeRuleSpec (lookupKey k a.entries) (lookupKey k b.entries) :=
  csAppend_lookup ha hb k

theorem ChangeSet.append_wf [LinearOrder K] {a b : ChangeSet K} (ha : a.wf = true) :
    (a.append b).wf = true :=
  csAppend_sorted a.entries b.entries ha

theorem ChangeSet.default_cs_wf [LinearOrder K] :
    (ChangeSet.default_cs : ChangeSet K).wf = true := rfl

/-! ### Merge trees: finitely many changesets merged in an arbitrary association -/

/-- A finite, arbitrarily associated merge expression over index changesets:
the leftmost leaf is the initial changeset, every `node` is one call to
`ChangeSet::append`. -/
inductive MergeTree (K : Type) where
  | leaf : ChangeSet K → MergeTree K
  | node : MergeTree K → MergeTree K → MergeTree K

/-- Evaluate a merge tree by the code's `ChangeSet::append`. -/
def MergeTree.merged [LinearOrder K] : MergeTree K → ChangeSet K
  | .leaf c => c
  | .node l r => ChangeSet.append l.merged r.merged

/-- The changesets taking part in the merge, in left-to-right order. -/
def MergeTree.leaves : MergeTree K → List (ChangeSet K)
  | .leaf c => [c]
  | .node l r => l.leaves ++ r.leaves

/-- All participating changesets are well-formed maps. -/
def MergeTree.wf [LinearOrder K] (t : MergeTree K) : Bool :=
  t.leaves.all (fun c => c.wf)

/-- The indices contributed for keychain `k` by a list of changesets. -/
def contributions [DecidableEq K] (k : K) (cs : List (ChangeSet K)) : List Nat :=
  cs.filterMap (fun c => lookupKey k c.entries)

/-- Maximum of a list of indices (`none` when no index was ever contributed). -/
def maxIndex : List Nat → Option Nat
  | [] => none
  | v :: rest =>
    match maxIndex rest with
    | none => some v
    | some m => some (max v m)

theorem maxIndex_append (l1 l2 : List Nat) :
    maxIndex (l1 ++ l2) = mergeRuleSpec (maxIndex l1) (maxIndex l2) := by
  induction l1 with
  | nil => cases h : maxIndex l2 <;> simp [maxIndex, mergeRuleSpec, h]
  | cons v l1 ih =>
    cases h1 : maxIndex l1 <;> cases h2 : maxIndex l2 <;>
      simp only [List.cons_append, List.append_eq, maxIndex, ih, h1, h2, mergeRuleSpec,
        Option.some.injEq] <;>
      omega

theorem merged_wf [LinearOrder K] (t : MergeTree K) (h : t.wf = true) :
    t.merged.wf = true := by
  induction t with
  | leaf c => simpa [MergeTree.wf, MergeTree.leaves] using h
  | node l r ihl ihr =>
    simp only [MergeTree.wf, MergeTree.leaves, List.all_append, Bool.and_eq_true] at h
    exact ChangeSet.append_wf (ihl h.1)

theorem merged_lookup [LinearOrder K] (t : MergeTree K) (h : t.wf = true) (k : K) :
    lookupKey k t.merged.entries = maxIndex (contributions k t.leaves) := by
  induction t with
  | leaf c =>
    cases h1 : lookupKey k c.entries <;>
      simp [MergeTree.merged, MergeTree.leaves, contributions, maxIndex, h1]
  | node l r ihl ihr =>
    simp only [MergeTree.wf, MergeTree.leaves, List.all_append, Bool.and_eq_true] at h
    have hl : l.merged.wf = true := merged_wf l (by simpa [MergeTree.wf] using h.1)
    have hr : r.merged.wf = true := merged_wf r (by simpa [MergeTree.wf] using h.2)
    show lookupKey k (l.merged.append r.merged).entries = _
    rw [ChangeSet.append_lookup hl hr k,
      ihl (by simpa [MergeTree.wf] using h.1), ihr (by simpa [MergeTree.wf] using h.2)]
    have hsplit : contributions k (l.leaves ++ r.leaves)
        = contributions k l.leaves ++ contributions k r.leaves := by
      simp [contributions]
    rw [MergeTree.leaves, hsplit, maxIndex_append]

/-! ### Composite changesets (`WalletChangeSet` and its constituents) -/

/-- Modelled from the spec: `local_chain::ChangeSet` is not under `src/`;
per the spec it is an opaque changeset "describing checkpoint
insertions/invalidations", so it is embedded as a list of per-height
checkpoint changes with an emptiness test. -/
structure LocalChainChangeSet where
  checkpoints : List (Nat × Option Nat)
deriving DecidableEq

def LocalChainChangeSet.is_empty (c : LocalChainChangeSet) : Bool :=
  c.checkpoints.isEmpty

/-- `Default` for the chain changeset: no checkpoint changes. -/
def LocalChainChangeSet.default_cs : LocalChainChangeSet := ⟨[]⟩

/-- Modelled from the spec: `tx_graph::ChangeSet<A>` is not under `src/`;
per the spec it is an opaque changeset describing "newly-known
transactions, outputs, confirmation anchors of type `A`, and last-seen
timestamps", embedded here as four lists (transaction ids stand in as
`Nat`). -/
structure TxGraphChangeSet (A : Type) where
  txs : List Nat
  txouts : List (Nat × Nat)
  anchors : List (A × Nat)
  last_seen : List (Nat × Nat)
deriving DecidableEq

def TxGraphChangeSet.is_empty {A : Type} (g : TxGraphChangeSet A) : Bool :=
  g.txs.isEmpty && g.txouts.isEmpty && g.anchors.isEmpty && g.last_seen.isEmpty

/-- `Default` for the graph changeset: nothing newly known. -/
def TxGraphChangeSet.default_cs {A : Type} : TxGraphChangeSet A := ⟨[], [], [], []⟩

/-- Modelled from the spec: `indexed_tx_graph::ChangeSet<A, ChangeSet<K>>`
is not under `src/`; per the spec the graph+index part of the composite
changeset pairs the graph changeset with the `MergeableIndex` delta, and
is empty iff both parts are. -/
structure IndexedTxGraphChangeSet (A K : Type) where
  graph : TxGraphChangeSet A
  indexer : ChangeSet K
deriving DecidableEq

def IndexedTxGraphChangeSet.is_empty {A K : Type} (c : IndexedTxGraphChangeSet A K) : Bool :=
  c.graph.is_empty && c.indexer.is_empty

/-- `Default` for the graph+index changeset. -/
def IndexedTxGraphChangeSet.default_cs {A K : Type} : IndexedTxGraphChangeSet A K :=
  ⟨TxGraphChangeSet.default_cs, ChangeSet.default_cs⟩

/-- `keychain::WalletChangeSet<K, A>`: changes to the local chain plus
changes to the indexed transaction graph. -/
structure WalletChangeSet (K A : Type) where
  chain : LocalChainChangeSet
  indexed_tx_graph : IndexedTxGraphChangeSet A K
deriving DecidableEq

/-- `WalletChangeSet::is_empty` (the `Append` impl in `keychain.rs`). -/
def WalletChangeSet.is_empty {K A : Type} (w : WalletChangeSet K A) : Bool :=
  w.chain.is_empty && w.indexed_tx_graph.is_empty

/-- `Default for WalletChangeSet`. -/
def WalletChangeSet.default_cs {K A : Type} : WalletChangeSet K A :=
  ⟨LocalChainChangeSet.default_cs, IndexedTxGraphChangeSet.default_cs⟩

/-- `From<local_chain::ChangeSet> for WalletChangeSet`: only the chain
field is set, the rest is defaulted. -/
def WalletChangeSet.from_chain {K A : Type} (chain : LocalChainChangeSet) :
    WalletChangeSet K A :=
  { chain := chain, indexed_tx_graph := IndexedTxGraphChangeSet.default_cs }

/-- `From<indexed_tx_graph::ChangeSet<A, ChangeSet<K>>> for WalletChangeSet`:
only the graph+index field is set, the chain is defaulted. -/
def WalletChangeSet.from_indexed_tx_graph {K A : Type}
    (g : IndexedTxGraphChangeSet A K) : WalletChangeSet K A :=
  { chain := LocalChainChangeSet.default_cs, indexed_tx_graph := g }

/-! ### Balance -/

/-- The wrap-around modulus of Rust `u64` arithmetic (`2 ^ 64`). -/
def u64Mod : Nat := 18446744073709551616

theorem u64Mod_eq : u64Mod = 2 ^ 64 := by norm_num [u64Mod]

/-- `keychain::Balance`: the four balance categories (`u64` amounts,
embedded as `Nat` with arithmetic taken modulo `2 ^ 64`). -/
structure Balance where
  immature : Nat
  trusted_pending : Nat
  untrusted_pending : Nat
  confirmed : Nat
deriving DecidableEq

/-- `Balance::trusted_spendable`: `self.confirmed + self.trusted_pending`. -/
def Balance.trusted_spendable (b : Balance) : Nat :=
  (b.confirmed + b.trusted_pending) % u64Mod

/-- `Balance::total`:
`self.confirmed + self.trusted_pending + self.untrusted_pending + self.immature`. -/
def Balance.total (b : Balance) : Nat :=
  (b.confirmed + b.trusted_pending + b.untrusted_pending + b.immature) % u64Mod

/-- `impl core::ops::Add for Balance`: field-wise `u64` addition. -/
def Balance.add (a b : Balance) : Balance :=
  ⟨(a.immature + b.immature) % u64Mod,
   (a.trusted_pending + b.trusted_pending) % u64Mod,
   (a.untrusted_pending + b.untrusted_pending) % u64Mod,
   (a.confirmed + b.confirmed) % u64Mod⟩

/-! ### Targeted sync (`example_electrum/src/main.rs`) -/

/-- The four caller flags of `ElectrumCommands::Sync`. -/
structure SyncFlags where
  unused_spks : Bool
  all_spks : Bool
  utxos : Bool
  unconfirmed : Bool
deriving DecidableEq

/-- The flag-defaulting logic at the top of the `Sync` handler
(`main.rs` lines 168-174): with no flag selected, default to
unused-spks + utxos + unconfirmed; with `all_spks`, suppress
`unused_spks`. -/
def applySyncDefaults (f : SyncFlags) : SyncFlags :=
  if !(f.all_spks || f.unused_spks || f.utxos || f.unconfirmed) then
    { f with unused_spks := true, unconfirmed := true, utxos := true }
  else if f.all_spks then
    { f with unused_spks := false }
  else f

/-- Modelled from the spec: the preliminary update type (`ElectrumUpdate`
of the electrum crate, not under `src/`) bundles a partial transaction
graph, a new chain tip, and per-keychain last-active indices; graph and
tip are opaque to this claim and stay type parameters `G` and `T`. -/
structure ElectrumUpdate (K G T : Type) where
  graph_update : G
  new_tip : T
  keychain_update : List (K × Nat)

/-- Modelled from the spec: the result of `scan_without_keychain` (the
electrum crate, not under `src/`) carries a partial transaction graph
and a new chain tip, but no keychain information. -/
structure SwkResult (G T : Type) where
  graph_update : G
  new_tip : T

/-- The `Sync` handler's construction of the preliminary update
(`main.rs` lines 254-258): pass the scan result through and set
`keychain_update` to the empty map; the caller flags influence only
which queries were issued, not this construction. -/
def syncRoundUpdate {K G T : Type} (_flags : SyncFlags) (r : SwkResult G T) :
    ElectrumUpdate K G T :=
  { graph_update := r.graph_update, new_tip := r.new_tip, keychain_update := [] }

/-! ## The claims -/

/-- Claim C1: merging index changeset `other` into `self` gives, at every
keychain, the larger of the two indices when the keychain is in both maps,
adopts `other`'s entries for keychains present only in `other`, and keeps
`self`'s entries unchanged for keychains present only in `self`
(`mergeRuleSpec` is that per-key rule); in particular
`{One:7, Two:0, Three:3}` merged with `{One:3, Two:5, Four:4}` yields
`{One:7, Two:5, Three:3, Four:4}`. -/
theorem claim_C1_append_realises_merge_rule :
    (∀ (K : Type) (_i : LinearOrder K) (a b : ChangeSet K),
        a.wf = true → b.wf = true → ∀ k : K,
        lookupKey k (a.append b).entries
          = mergeRuleSpec (lookupKey k a.entries) (lookupKey k b.entries))
    ∧ ChangeSet.append ⟨[(Keychain.one, 7), (Keychain.two, 0), (Keychain.three, 3)]⟩
        ⟨[(Keychain.one, 3), (Keychain.two, 5), (Keychain.four, 4)]⟩
      = ⟨[(Keychain.one, 7), (Keychain.two, 5), (Keychain.three, 3), (Keychain.four, 4)]⟩ := by
  constructor
  · intro K _i a b ha hb k
    exact ChangeSet.append_lookup ha hb k
  · decide

/-- Witness for C1: the per-key merge rule evaluated at keychain `Two` of
the concrete scenario. -/
theorem claim_C1_witness :
    lookupKey Keychain.two
        ((ChangeSet.append
            (⟨[(Keychain.one, 7), (Keychain.two, 0), (Keychain.three, 3)]⟩ : ChangeSet Keychain)
            ⟨[(Keychain.one, 3), (Keychain.two, 5), (Keychain.four, 4)]⟩).entries)
      = mergeRuleSpec
          (lookupKey Keychain.two
            ((⟨[(Keychain.one, 7), (Keychain.two, 0), (Keychain.three, 3)]⟩ : ChangeSet Keychain).entries))
          (lookupKey Keychain.two
            ((⟨[(Keychain.one, 3), (Keychain.two, 5), (Keychain.four, 4)]⟩ : ChangeSet Keychain).entries)) :=
  claim_C1_append_realises_merge_rule.1 Keychain inferInstance
    ⟨[(Keychain.one, 7), (Keychain.two, 0), (Keychain.three, 3)]⟩
    ⟨[(Keychain.one, 3), (Keychain.two, 5), (Keychain.four, 4)]⟩
    (by decide) (by decide) Keychain.two

/-- Claim C2: for every keychain `k`, merging finitely many well-formed
index changesets in any association (a `MergeTree`, whose leftmost leaf is
the initial changeset) yields, at `k`, exactly the maximum of all indices
contributed for `k` by the participating changesets; moreover a single
merge never decreases the index recorded for `k`. -/
theorem claim_C2_merge_monotone_max :
    (∀ (K : Type) (_i : LinearOrder K) (t : MergeTree K), t.wf = true → ∀ k : K,
        lookupKey k t.merged.entries = maxIndex (contributions k t.leaves))
    ∧ (∀ (K : Type) (_i : LinearOrder K) (a b : ChangeSet K),
        a.wf = true → b.wf = true → ∀ (k : K) (v : Nat),
        lookupKey k a.entries = some v →
        ∃ w : Nat, lookupKey k (a.append b).entries = some w ∧ v ≤ w) := by
  constructor
  · intro K _i t ht k
    exact merged_lookup t ht k
  · intro K _i a b ha hb k v hv
    rw [ChangeSet.append_lookup ha hb k, hv]
    cases hb2 : lookupKey k b.entries with
    | none => exact ⟨v, rfl, le_refl v⟩
    | some w => exact ⟨max w v, rfl, le_max_right w v⟩

/-- Witness for C2: three changesets merged right-associatively give index
`9 = max {2, 9, 4}` for keychain `One`, and one concrete merge does not
decrease the index `3`. -/
theorem claim_C2_witness :
    lookupKey Keychain.one
        (MergeTree.merged (MergeTree.node (MergeTree.leaf ⟨[(Keychain.one, 2)]⟩)
          (MergeTree.node (MergeTree.leaf ⟨[(Keychain.one, 9)]⟩)
            (MergeTree.leaf ⟨[(Keychain.one, 4)]⟩)))).entries
      = maxIndex (contributions Keychain.one
          (MergeTree.leaves (MergeTree.node (MergeTree.leaf ⟨[(Keychain.one, 2)]⟩)
            (MergeTree.node (MergeTree.leaf ⟨[(Keychain.one, 9)]⟩)
              (MergeTree.leaf ⟨[(Keychain.one, 4)]⟩)))))
    ∧ ∃ w : Nat,
        lookupKey Keychain.one
            ((ChangeSet.append (⟨[(Keychain.one, 3)]⟩ : ChangeSet Keychain)
              ⟨[(Keychain.one, 8)]⟩).entries) = some w ∧ 3 ≤ w :=
  ⟨claim_C2_merge_monotone_max.1 Keychain inferInstance
      (MergeTree.node (MergeTree.leaf ⟨[(Keychain.one, 2)]⟩)
        (MergeTree.node (MergeTree.leaf ⟨[(Keychain.one, 9)]⟩)
          (MergeTree.leaf ⟨[(Keychain.one, 4)]⟩)))
      (by decide) Keychain.one,
   claim_C2_merge_monotone_max.2 Keychain inferInstance
      ⟨[(Keychain.one, 3)]⟩ ⟨[(Keychain.one, 8)]⟩
      (by decide) (by decide) Keychain.one 3 (by decide)⟩

/-- Claim C3: `WalletChangeSet::is_empty` is true exactly when all three
constituent changesets — the chain changeset, the graph changeset and the
index changeset — are empty. -/
theorem claim_C3_composite_emptiness :
    ∀ (K A : Type) (w : WalletChangeSet K A),
    w.is_empty = true
      ↔ (w.chain.is_empty = true
          ∧ w.indexed_tx_graph.graph.is_empty = true
          ∧ w.indexed_tx_graph.indexer.is_empty = true) := by
  intro K A w
  simp [WalletChangeSet.is_empty, IndexedTxGraphChangeSet.is_empty, and_assoc]

/-- Claim C4: in the absence of `u64` overflow, `Balance::total` is the
sum of the four categories and `Balance::trusted_spendable` is
`confirmed + trusted_pending`. -/
theorem claim_C4_balance_totals :
    ∀ b : Balance,
    b.immature + b.trusted_pending + b.untrusted_pending + b.confirmed < u64Mod →
    b.total = b.immature + b.trusted_pending + b.untrusted_pending + b.confirmed
    ∧ b.trusted_spendable = b.confirmed + b.trusted_pending := by
  intro b h
  obtain ⟨b1, b2, b3, b4⟩ := b
  simp only [Balance.total, Balance.trusted_spendable, u64Mod] at h ⊢
  constructor <;> omega

/-- Witness for C4 at the balance `⟨1, 2, 3, 4⟩`. -/
theorem claim_C4_witness :
    (⟨1, 2, 3, 4⟩ : Balance).total = 1 + 2 + 3 + 4
    ∧ (⟨1, 2, 3, 4⟩ : Balance).trusted_spendable = 4 + 2 :=
  claim_C4_balance_totals ⟨1, 2, 3, 4⟩ (by norm_num [u64Mod])

/-- Claim C5: merging index changesets is order-independent:
`merge(merge(A,B),C) = merge(merge(A,C),B)` on well-formed changesets. -/
theorem claim_C5_merge_exchange :
    ∀ (K : Type) (_i : LinearOrder K) (a b c : ChangeSet K),
    a.wf = true → b.wf = true → c.wf = true →
    (a.append b).append c = (a.append c).append b := by
  intro K _i a b c ha hb hc
  have hab : (a.append b).wf = true := ChangeSet.append_wf ha
  have hac : (a.append c).wf = true := ChangeSet.append_wf ha
  apply ChangeSet.eq_of_entries
  apply lookup_ext _ _ (ChangeSet.append_wf hab) (ChangeSet.append_wf hac)
  intro k
  rw [ChangeSet.append_lookup hab hc k, ChangeSet.append_lookup hac hb k,
    ChangeSet.append_lookup ha hb k, ChangeSet.append_lookup ha hc k,
    mergeRuleSpec_exchange]

/-- Witness for C5 at three concrete changesets. -/
theorem claim_C5_witness :
    ChangeSet.append
        (ChangeSet.append (⟨[(Keychain.one, 1)]⟩ : ChangeSet Keychain)
          ⟨[(Keychain.one, 5), (Keychain.two, 2)]⟩)
        ⟨[(Keychain.two, 7)]⟩
      = ChangeSet.append
          (ChangeSet.append (⟨[(Keychain.one, 1)]⟩ : ChangeSet Keychain)
            ⟨[(Keychain.two, 7)]⟩)
          ⟨[(Keychain.one, 5), (Keychain.two, 2)]⟩ :=
  claim_C5_merge_exchange Keychain inferInstance
    ⟨[(Keychain.one, 1)]⟩ ⟨[(Keychain.one, 5), (Keychain.two, 2)]⟩ ⟨[(Keychain.two, 7)]⟩
    (by decide) (by decide) (by decide)

/-- Claim C6: merging a copy of a changeset into itself, and merging the
empty (default) changeset into a changeset, both leave it unchanged. -/
theorem claim_C6_merge_idempotent_identity :
    ∀ (K : Type) (_i : LinearOrder K) (a : ChangeSet K), a.wf = true →
    a.append a = a ∧ a.append ChangeSet.default_cs = a := by
  intro K _i a ha
  constructor
  · apply ChangeSet.eq_of_entries
    apply lookup_ext _ _ (ChangeSet.append_wf ha) ha
    intro k
    rw [ChangeSet.append_lookup ha ha k, mergeRuleSpec_self]
  · apply ChangeSet.eq_of_entries
    apply lookup_ext _ _ (ChangeSet.append_wf ha) ha
    intro k
    rw [ChangeSet.append_lookup ha ChangeSet.default_cs_wf k]
    simp [ChangeSet.default_cs, lookupKey, mergeRuleSpec_none_right]

/-- Witness for C6 at a concrete changeset. -/
theorem claim_C6_witness :
    ChangeSet.append (⟨[(Keychain.one, 3), (Keychain.three, 1)]⟩ : ChangeSet Keychain)
        ⟨[(Keychain.one, 3), (Keychain.three, 1)]⟩
      = ⟨[(Keychain.one, 3), (Keychain.three, 1)]⟩
    ∧ ChangeSet.append (⟨[(Keychain.one, 3), (Keychain.three, 1)]⟩ : ChangeSet Keychain)
        ChangeSet.default_cs
      = ⟨[(Keychain.one, 3), (Keychain.three, 1)]⟩ :=
  claim_C6_merge_idempotent_identity Keychain inferInstance
    ⟨[(Keychain.one, 3), (Keychain.three, 1)]⟩ (by decide)

/-- Claim C7: targeted-sync flag handling: with none of the four flags
selected the effective selection is exactly unused-spks + utxos +
unconfirmed; with `all_spks` selected `unused_spks` is forced off;
otherwise the flags are used as given. -/
theorem claim_C7_sync_flag_defaults :
    ∀ f : SyncFlags,
    (f.unused_spks = false ∧ f.all_spks = false ∧ f.utxos = false ∧ f.unconfirmed = false →
      applySyncDefaults f = ⟨true, false, true, true⟩)
    ∧ (f.all_spks = true →
      applySyncDefaults f = ⟨false, f.all_spks, f.utxos, f.unconfirmed⟩)
    ∧ ((f.unused_spks = true ∨ f.utxos = true ∨ f.unconfirmed = true) → f.all_spks = false →
      applySyncDefaults f = f) := by
  intro f
  obtain ⟨u, a, x, c⟩ := f
  cases u <;> cases a <;> cases x <;> cases c <;> decide

/-- Witness for C7: no flags selected gives the default bundle. -/
theorem claim_C7_witness :
    applySyncDefaults ⟨false, false, false, false⟩ = ⟨true, false, true, true⟩ :=
  (claim_C7_sync_flag_defaults ⟨false, false, false, false⟩).1 ⟨rfl, rfl, rfl, rfl⟩

/-- Claim C8: only a full scan produces last-active indices: the update a
targeted-sync round hands to finalization always carries an empty
`keychain_update` whatever the flags, while the new chain tip and the
partial transaction graph of the scan result are passed through. -/
theorem claim_C8_sync_has_no_keychain_update :
    ∀ (K G T : Type) (f : SyncFlags) (r : SwkResult G T),
    (syncRoundUpdate f r : ElectrumUpdate K G T).keychain_update = []
    ∧ (syncRoundUpdate f r : ElectrumUpdate K G T).new_tip = r.new_tip
    ∧ (syncRoundUpdate f r : ElectrumUpdate K G T).graph_update = r.graph_update := by
  intro K G T f r
  exact ⟨rfl, rfl, rfl⟩

/-- Claim C9: the conversion constructors populate exactly one field: from
a chain changeset the graph+index part is defaulted (and empty); from a
graph+index changeset the chain part is defaulted (and empty). -/
theorem claim_C9_partial_constructors :
    ∀ (K A : Type) (c : LocalChainChangeSet) (g : IndexedTxGraphChangeSet A K),
    (WalletChangeSet.from_chain c : WalletChangeSet K A).chain = c
    ∧ (WalletChangeSet.from_chain c : WalletChangeSet K A).indexed_tx_graph
        = IndexedTxGraphChangeSet.default_cs
    ∧ ((WalletChangeSet.from_chain c : WalletChangeSet K A).indexed_tx_graph).is_empty = true
    ∧ (WalletChangeSet.from_indexed_tx_graph g : WalletChangeSet K A).indexed_tx_graph = g
    ∧ (WalletChangeSet.from_indexed_tx_graph g : WalletChangeSet K A).chain
        = LocalChainChangeSet.default_cs
    ∧ ((WalletChangeSet.from_indexed_tx_graph g : WalletChangeSet K A).chain).is_empty = true := by
  intro K A c g
  exact ⟨rfl, rfl, rfl, rfl, rfl, rfl⟩

/-- Claim C10: in the absence of `u64` overflow, `Balance` addition is
field-wise, and `total` and `trusted_spendable` distribute over it. -/
theorem claim_C10_balance_add_homomorphism :
    ∀ a b : Balance,
    a.immature + b.immature + a.trusted_pending + b.trusted_pending
      + a.untrusted_pending + b.untrusted_pending + a.confirmed + b.confirmed < u64Mod →
    ((a.add b).immature = a.immature + b.immature
      ∧ (a.add b).trusted_pending = a.trusted_pending + b.trusted_pending
      ∧ (a.add b).untrusted_pending = a.untrusted_pending + b.untrusted_pending
      ∧ (a.add b).confirmed = a.confirmed + b.confirmed)
    ∧ (a.add b).total = a.total + b.total
    ∧ (a.add b).trusted_spendable = a.trusted_spendable + b.trusted_spendable := by
  intro a b h
  obtain ⟨a1, a2, a3, a4⟩ := a
  obtain ⟨b1, b2, b3, b4⟩ := b
  simp only [Balance.add, Balance.total, Balance.trusted_spendable, u64Mod] at h ⊢
  refine ⟨⟨?_, ?_, ?_, ?_⟩, ?_, ?_⟩ <;> omega

/-- Witness for C10 at two concrete balances. -/
theorem claim_C10_witness :
    (((⟨1, 2, 3, 4⟩ : Balance).add ⟨10, 20, 30, 40⟩).immature = 1 + 10
      ∧ ((⟨1, 2, 3, 4⟩ : Balance).add ⟨10, 20, 30, 40⟩).trusted_pending = 2 + 20
      ∧ ((⟨1, 2, 3, 4⟩ : Balance).add ⟨10, 20, 30, 40⟩).untrusted_pending = 3 + 30
      ∧ ((⟨1, 2, 3, 4⟩ : Balance).add ⟨10, 20, 30, 40⟩).confirmed = 4 + 40)
    ∧ ((⟨1, 2, 3, 4⟩ : Balance).add ⟨10, 20, 30, 40⟩).total
        = (⟨1, 2, 3, 4⟩ : Balance).total + (⟨10, 20, 30, 40⟩ : Balance).total
    ∧ ((⟨1, 2, 3, 4⟩ : Balance).add ⟨10, 20, 30, 40⟩).trusted_spendable
        = (⟨1, 2, 3, 4⟩ : Balance).trusted_spendable
          + (⟨10, 20, 30, 40⟩ : Balance).trusted_spendable :=
  claim_C10_balance_add_homomorphism ⟨1, 2, 3, 4⟩ ⟨10, 20, 30, 40⟩ (by norm_num [u64Mod])

end BdkSpec
